import Mathlib

/-!
A shallow embedding of `src/lab3_sjf.c`: a discrete-event simulation of an
M/M/1 queue served in shortest-job-first (SJF) order.

Modelling conventions:
* C `long int` values (simulation times, CPU bursts) are `Int`.
* The `float` statistics accumulators are modelled exactly (`Int` for the
  running response-time sum, `Nat` for the completion count, `ℚ` for the
  reported mean).
* The doubly linked event list and the singly linked ready queue are `List`s
  read from head (`top_event` / `q_head`) to tail (`last_event` / `q_last`).
* A C control path that dereferences a null pointer (the unguarded do-while
  scan of `Puton_queue` running off the end of the queue, a `NULL` returned
  by `Takoff_queue` being dereferenced by `Gen_departure`, removal from an
  empty event list) is modelled as `Option.none`.
* The outcomes of `expon` (which consumes `rand()`) are modelled as an
  ambient stream `rng : Nat -> Int` of already-generated durations,
  consumed in program order via a cursor `rng_idx`.
* The real-valued variate generator `expon` itself is modelled over `ℝ`,
  and the uniform draw `rand() / (float)RAND_MAX` over `ℚ`.
-/

/-- Customer record (`struct Custs`): arrival time and CPU burst. -/
structure Custs where
  arrive_time : Int
  CPU_time : Int
  deriving DecidableEq, Repr

/-- Event kinds: `ARRIVAL`, `COMPLETE` (departure), `EOS` (end of simulation). -/
inductive EvType where
  | ARRIVAL
  | COMPLETE
  | EOS
  deriving DecidableEq, Repr

/-- Event-list node (`struct event_node`): type, firing time and the
customer responsible (the `EOS` event carries `NULL`). -/
structure EventNode where
  ev_type : EvType
  ev_time : Int
  cust_index : Option Custs
  deriving DecidableEq, Repr

/-- The middle-insertion scan of `Puton_queue` (the final `do ... while`
loop): `previous_node` starts at the head, `following_node` at its
successor, and the new customer is linked in front of the first
`following_node` whose burst strictly exceeds the new one's.  The loop has
no exit condition of its own; `none` models `following_node` reaching the
end of the queue, after which the C code dereferences a null pointer. -/
def puton_mid (newc : Custs) : List Custs → Option (List Custs)
  | p :: f :: rest =>
    if newc.CPU_time < f.CPU_time then
      some (p :: newc :: f :: rest)
    else
      (puton_mid newc (f :: rest)).map (fun r => p :: r)
  | _ => none

/-- `Puton_queue`: SJF-ordered insertion into the ready queue.  Four cases,
in source order: empty queue; burst strictly shorter than the head's
(prepend); burst not shorter than the last node's (append); otherwise the
middle-insertion scan `puton_mid`. -/
def Puton_queue (newc : Custs) (q : List Custs) : Option (List Custs) :=
  match q with
  | [] => some [newc]
  | x :: xs =>
    if newc.CPU_time < x.CPU_time then some (newc :: x :: xs)
    else if (xs.getLastD x).CPU_time ≤ newc.CPU_time then some (x :: xs ++ [newc])
    else puton_mid newc (x :: xs)

/-- `Takoff_queue`: remove and return the head customer; `none` models the
queue-underflow error path (which returns `NULL`). -/
def Takoff_queue : List Custs → Option (Custs × List Custs)
  | [] => none
  | x :: xs => some (x, xs)

/-- The middle-insertion scan of `Insert_event` (the `while(pos != NULL &&
not_found)` loop): walk from `top_event` to the first node whose time
strictly exceeds the new event's time and link the new event right before
it; `none` models `pos` running off the end with `not_found` still set. -/
def ins_scan (e : EventNode) : List EventNode → Option (List EventNode)
  | [] => none
  | x :: xs =>
    if x.ev_time > e.ev_time then some (e :: x :: xs)
    else (ins_scan e xs).map (fun r => x :: r)

/-- The middle-insertion portion of `Insert_event` including its failed-scan
error branch: when `ins_scan` fails, the C code prints a diagnostic and
returns without linking the new node, leaving the event list unchanged. -/
def Insert_event_mid (e : EventNode) (l : List EventNode) : List EventNode :=
  match ins_scan e l with
  | some r => r
  | none => l

/-- `Insert_event`: time-ordered insertion into the event list.  Four cases,
in source order: empty list; earlier than `top_event` (prepend); no earlier
than `last_event` (append); otherwise the middle-insertion scan. -/
def Insert_event (e : EventNode) (l : List EventNode) : List EventNode :=
  match l with
  | [] => [e]
  | x :: xs =>
    if x.ev_time > e.ev_time then e :: x :: xs
    else if (xs.getLastD x).ev_time ≤ e.ev_time then x :: xs ++ [e]
    else Insert_event_mid e (x :: xs)

/-- `Remove_event`: remove and return the head of the event list; `none`
models the event-list-underflow error path (which returns `NULL`). -/
def Remove_event : List EventNode → Option (EventNode × List EventNode)
  | [] => none
  | x :: xs => some (x, xs)

/-- Non-decreasing order of a list under an integer key. -/
def keySorted (key : α → Int) (l : List α) : Prop :=
  List.Pairwise (fun a b => key a ≤ key b) l

instance (key : α → Int) (l : List α) : Decidable (keySorted key l) :=
  inferInstanceAs (Decidable (List.Pairwise _ l))

/-- Modelled from the spec: ordered insertion with FIFO tie-break — the new
element goes after every element whose key is less than or equal to its own
and before the first element whose key strictly exceeds it. -/
def key_insert_spec (key : α → Int) (c : α) (l : List α) : List α :=
  l.takeWhile (fun b => decide (key b ≤ key c)) ++
    c :: l.dropWhile (fun b => decide (key b ≤ key c))

/-- Ready-queue sortedness: non-decreasing CPU burst. -/
def QSorted (l : List Custs) : Prop := keySorted (fun c => c.CPU_time) l

instance (l : List Custs) : Decidable (QSorted l) :=
  inferInstanceAs (Decidable (keySorted _ l))

/-- Event-list sortedness: non-decreasing event time. -/
def TSorted (l : List EventNode) : Prop := keySorted (fun e => e.ev_time) l

instance (l : List EventNode) : Decidable (TSorted l) :=
  inferInstanceAs (Decidable (keySorted _ l))

/-- Modelled from the spec: SJF enqueue as ascending-burst insertion with
FIFO tie-break. -/
def sjf_insert_spec : Custs → List Custs → List Custs :=
  key_insert_spec (fun c => c.CPU_time)

/-- Modelled from the spec: timeline insert as ascending-time insertion with
FIFO tie-break (equal-time events go after all existing ones). -/
def timeline_insert_spec : EventNode → List EventNode → List EventNode :=
  key_insert_spec (fun e => e.ev_time)

/-- The global mutable state of the simulation: clock, server flag, event
list, SJF ready queue, the two statistics accumulators, and the stream of
`expon` outcomes with its cursor. -/
structure SimState where
  clock : Int
  busy : Bool
  timeline : List EventNode
  queue : List Custs
  accum_resp_time : Int
  num_resp_time : Nat
  rng : Nat → Int
  rng_idx : Nat

/-- `Gen_departure`: schedule the departure of customer `c` by inserting a
`COMPLETE` event at `CPU_time + clock` into the event list. -/
def Gen_departure (c : Custs) (s : SimState) : SimState :=
  { s with timeline :=
      Insert_event ⟨EvType.COMPLETE, c.CPU_time + s.clock, some c⟩ s.timeline }

/-- `start_service`: remove the first customer from the queue, set the
server busy, and schedule its departure.  `none` models the C code
dereferencing the `NULL` returned by `Takoff_queue` on an empty queue. -/
def start_service (s : SimState) : Option SimState :=
  match Takoff_queue s.queue with
  | none => none
  | some (c, rest) => some (Gen_departure c { s with queue := rest, busy := true })

/-- `depart`: process a `COMPLETE` event for customer `c` — set the server
idle, accumulate `clock - arrive_time`, count the completion, drop the
customer record, and start the next service if the queue is non-empty. -/
def depart (c : Custs) (s : SimState) : Option SimState :=
  let s1 := { s with busy := false,
                     accum_resp_time := s.accum_resp_time + (s.clock - c.arrive_time),
                     num_resp_time := s.num_resp_time + 1 }
  match s1.queue with
  | [] => some s1
  | _ :: _ => start_service s1

/-- `Gen_arrival`: draw an interarrival duration and insert the next
`ARRIVAL` event at `clock + duration`.  The freshly malloc'd customer's
fields are uninitialized until the arrival is processed; the model stores a
placeholder that `arrive` overwrites. -/
def Gen_arrival (s : SimState) : SimState :=
  { s with
    timeline := Insert_event ⟨EvType.ARRIVAL, s.clock + s.rng s.rng_idx, some ⟨0, 0⟩⟩ s.timeline
    rng_idx := s.rng_idx + 1 }

/-- `arrive`: process an `ARRIVAL` event — generate the next arrival, stamp
the arriving customer with `arrive_time = clock` and a freshly drawn burst,
enqueue it, and start service if the server is idle. -/
def arrive (s : SimState) : Option SimState :=
  let s1 := Gen_arrival s
  let c : Custs := ⟨s1.clock, s1.rng s1.rng_idx⟩
  let s2 := { s1 with rng_idx := s1.rng_idx + 1 }
  match Puton_queue c s2.queue with
  | none => none
  | some q =>
    let s3 := { s2 with queue := q }
    if s3.busy then some s3 else start_service s3

/-- `Process_statistics`: the mean response time reported at end of
simulation, `accum_resp_time / (100.0 * num_resp_time)`. -/
def Process_statistics (s : SimState) : ℚ :=
  (s.accum_resp_time : ℚ) / (100 * (s.num_resp_time : ℚ))

/-- Outcome of one iteration of the main loop: continue with a new state,
stop with the reported mean (`EOS`), or hit a modelled error/crash path. -/
inductive StepResult where
  | next (s : SimState)
  | done (mean : ℚ)
  | fail

/-- One iteration of the `while(not_done)` loop in `main`: remove the next
event, advance the clock to its time, and dispatch on its kind. -/
def sim_step (s : SimState) : StepResult :=
  match Remove_event s.timeline with
  | none => StepResult.fail
  | some (ev, rest) =>
    let s1 := { s with timeline := rest, clock := ev.ev_time }
    match ev.ev_type with
    | EvType.ARRIVAL =>
      match arrive s1 with
      | some s2 => StepResult.next s2
      | none => StepResult.fail
    | EvType.COMPLETE =>
      match ev.cust_index with
      | none => StepResult.fail
      | some c =>
        match depart c s1 with
        | some s2 => StepResult.next s2
        | none => StepResult.fail
    | EvType.EOS => StepResult.done (Process_statistics s1)

/-- Run `n` iterations of the main loop, `none` as soon as the run stops or
fails. -/
def sim_iter : Nat → SimState → Option SimState
  | 0, s => some s
  | n + 1, s =>
    match sim_step s with
    | StepResult.next s' => sim_iter n s'
    | _ => none

/-- The driver invariant: the event list is time-sorted and holds only
events no earlier than the clock, the ready queue is burst-sorted and holds
only non-negative bursts, and every drawn duration is non-negative. -/
def SimInv (s : SimState) : Prop :=
  TSorted s.timeline ∧
  (∀ e ∈ s.timeline, s.clock ≤ e.ev_time) ∧
  QSorted s.queue ∧
  (∀ c ∈ s.queue, 0 ≤ c.CPU_time) ∧
  (∀ n, 0 ≤ s.rng n)

/-- `RAND_MAX` of the C library on the original 32-bit `rand()`. -/
def RAND_MAX : Int := 2147483647

/-- The uniform draw of `expon`: `rand() / (float) RAND_MAX` for a raw
`rand()` outcome `r`. -/
def uniform_draw (r : Int) : ℚ := (r : ℚ) / (RAND_MAX : ℚ)

/-- `expon`: the exponential variate `ceil(-(mean*100) * log(1 - u))`,
modelled over the reals. -/
noncomputable def expon (mean : ℝ) (u : ℝ) : ℤ :=
  ⌈-(mean * 100) * Real.log (1 - u)⌉

/-- Concrete state for a witness run: one pending departure of the customer
that arrived at time 1 with burst 2, firing at time 3. -/
def witState : SimState :=
  { clock := 0, busy := true,
    timeline := [⟨EvType.COMPLETE, 3, some ⟨1, 2⟩⟩],
    queue := [], accum_resp_time := 0, num_resp_time := 0,
    rng := fun _ => 1, rng_idx := 0 }

/-- The state `witState` reaches after one driver step. -/
def witState' : SimState :=
  { clock := 3, busy := false, timeline := [], queue := [],
    accum_resp_time := 2, num_resp_time := 1,
    rng := fun _ => 1, rng_idx := 0 }

/-- Concrete state with an empty ready queue, for exercising `depart`. -/
def wsE : SimState :=
  { clock := 9, busy := true, timeline := [], queue := [],
    accum_resp_time := 4, num_resp_time := 2,
    rng := fun _ => 1, rng_idx := 0 }

/-- Concrete state with a two-customer ready queue, for exercising
`depart`. -/
def wsN : SimState :=
  { wsE with queue := [⟨5, 7⟩, ⟨6, 9⟩] }

/-! ### Helper lemmas about the ordered-insert specification -/

theorem mem_key_insert_spec {key : α → Int} {c b : α} {l : List α}
    (h : b ∈ key_insert_spec key c l) : b = c ∨ b ∈ l := by
  unfold key_insert_spec at h
  rcases List.mem_append.mp h with h1 | h2
  · exact Or.inr ((List.takeWhile_sublist _).subset h1)
  · rcases List.mem_cons.mp h2 with h3 | h3
    · exact Or.inl h3
    · exact Or.inr ((List.dropWhile_sublist _).subset h3)

theorem key_insert_spec_sorted (key : α → Int) (c : α) :
    ∀ l : List α, keySorted key l → keySorted key (key_insert_spec key c l) := by
  intro l
  induction l with
  | nil =>
    intro _
    unfold key_insert_spec keySorted
    simp
  | cons x xs ih =>
    intro hs
    obtain ⟨hx, hxs⟩ := List.pairwise_cons.mp hs
    by_cases hcx : key x ≤ key c
    · have heq : key_insert_spec key c (x :: xs) = x :: key_insert_spec key c xs := by
        unfold key_insert_spec
        simp [List.takeWhile_cons, List.dropWhile_cons, hcx]
      rw [heq]
      refine List.pairwise_cons.mpr ⟨?_, ih hxs⟩
      intro b hb
      rcases mem_key_insert_spec hb with h | h
      · rw [h]; exact hcx
      · exact hx b h
    · have hlt : key c < key x := not_le.mp hcx
      have heq : key_insert_spec key c (x :: xs) = c :: x :: xs := by
        unfold key_insert_spec
        simp [List.takeWhile_cons, List.dropWhile_cons, hcx]
      rw [heq]
      refine List.pairwise_cons.mpr ⟨?_, hs⟩
      intro b hb
      rcases List.mem_cons.mp hb with h | h
      · rw [h]; exact le_of_lt hlt
      · exact le_trans (le_of_lt hlt) (hx b h)

theorem keySorted_le_getLastD (key : α → Int) :
    ∀ (x : α) (xs : List α), keySorted key (x :: xs) →
      ∀ b ∈ x :: xs, key b ≤ key (xs.getLastD x) := by
  intro x xs
  induction xs generalizing x with
  | nil =>
    intro _ b hb
    rcases List.mem_cons.mp hb with h | h
    · simp [h]
    · simp at h
  | cons y ys ih =>
    intro hs b hb
    obtain ⟨h1, h2⟩ := List.pairwise_cons.mp hs
    rw [List.getLastD_cons]
    rcases List.mem_cons.mp hb with h | h
    · have hxy : key x ≤ key y := h1 y (by simp)
      have hyl := ih y h2 y (by simp)
      rw [h]
      exact le_trans hxy hyl
    · exact ih y h2 b h

theorem key_insert_spec_append (key : α → Int) (c : α) :
    ∀ l : List α, (∀ b ∈ l, key b ≤ key c) → key_insert_spec key c l = l ++ [c] := by
  intro l
  induction l with
  | nil => intro _; rfl
  | cons x xs ih =>
    intro h
    have hx : key x ≤ key c := h x (by simp)
    have hrec := ih (fun b hb => h b (List.mem_cons_of_mem x hb))
    unfold key_insert_spec at hrec ⊢
    simp only [List.takeWhile_cons, List.dropWhile_cons, decide_eq_true_eq, hx, if_true,
      if_pos, List.cons_append]
    rw [hrec]

/-! ### The middle-insertion scans agree with ordered insertion -/

theorem ins_scan_eq_spec (e : EventNode) :
    ∀ l : List EventNode, (∃ b ∈ l, e.ev_time < b.ev_time) →
      ins_scan e l = some (timeline_insert_spec e l) := by
  intro l
  induction l with
  | nil =>
    rintro ⟨b, hb, -⟩
    simp at hb
  | cons x xs ih =>
    rintro ⟨b, hb, hlt⟩
    by_cases hx : x.ev_time > e.ev_time
    · have hnle : ¬ x.ev_time ≤ e.ev_time := not_le.mpr hx
      unfold ins_scan timeline_insert_spec key_insert_spec
      simp [List.takeWhile_cons, List.dropWhile_cons, hx, hnle]
    · have hxle : x.ev_time ≤ e.ev_time := not_lt.mp hx
      have hbxs : b ∈ xs := by
        rcases List.mem_cons.mp hb with h | h
        · exact absurd (h ▸ hlt) hx
        · exact h
      have hrec := ih ⟨b, hbxs, hlt⟩
      unfold ins_scan
      rw [hrec]
      unfold timeline_insert_spec key_insert_spec
      simp [List.takeWhile_cons, List.dropWhile_cons, hxle, not_lt.mp hx]

theorem puton_mid_eq_spec (c : Custs) :
    ∀ (x : Custs) (xs : List Custs), (∃ b ∈ xs, c.CPU_time < b.CPU_time) →
      puton_mid c (x :: xs) = some (x :: sjf_insert_spec c xs) := by
  intro x xs
  induction xs generalizing x with
  | nil =>
    rintro ⟨b, hb, -⟩
    simp at hb
  | cons f rest ih =>
    rintro ⟨b, hb, hlt⟩
    by_cases hf : c.CPU_time < f.CPU_time
    · have hnle : ¬ f.CPU_time ≤ c.CPU_time := not_le.mpr hf
      unfold puton_mid sjf_insert_spec key_insert_spec
      simp [List.takeWhile_cons, List.dropWhile_cons, hf, hnle]
    · have hfle : f.CPU_time ≤ c.CPU_time := not_lt.mp hf
      have hbrest : b ∈ rest := by
        rcases List.mem_cons.mp hb with h | h
        · exact absurd (h ▸ hlt) hf
        · exact h
      have hrec := ih f ⟨b, hbrest, hlt⟩
      unfold puton_mid
      rw [hrec]
      unfold sjf_insert_spec key_insert_spec
      simp [List.takeWhile_cons, List.dropWhile_cons, hf, hfle]

/-- On a burst-sorted queue, `Puton_queue` always succeeds and performs
exactly the ordered insertion with FIFO tie-break. -/
theorem puton_queue_eq_spec (c : Custs) (l : List Custs) (hs : QSorted l) :
    Puton_queue c l = some (sjf_insert_spec c l) := by
  match l with
  | [] => rfl
  | x :: xs =>
    by_cases h1 : c.CPU_time < x.CPU_time
    · have hnle : ¬ x.CPU_time ≤ c.CPU_time := not_le.mpr h1
      unfold Puton_queue sjf_insert_spec key_insert_spec
      simp [List.takeWhile_cons, List.dropWhile_cons, h1, hnle]
    · by_cases h2 : (xs.getLastD x).CPU_time ≤ c.CPU_time
      · have hall : ∀ b ∈ x :: xs, b.CPU_time ≤ c.CPU_time := fun b hb =>
          le_trans (keySorted_le_getLastD _ x xs hs b hb) h2
        have hspec : sjf_insert_spec c (x :: xs) = (x :: xs) ++ [c] :=
          key_insert_spec_append _ c (x :: xs) hall
        unfold Puton_queue
        simp only [h1, h2, if_true, if_false, ite_true, ite_false, hspec]
      · have hlast := List.getLastD_mem_cons xs x
        have hex : ∃ b ∈ xs, c.CPU_time < b.CPU_time := by
          rcases List.mem_cons.mp hlast with h | h
          · exfalso
            rw [h] at h2
            exact h2 (not_lt.mp h1)
          · exact ⟨_, h, not_le.mp h2⟩
        have hmid := puton_mid_eq_spec c x xs hex
        have hxle : x.CPU_time ≤ c.CPU_time := not_lt.mp h1
        have hspec : sjf_insert_spec c (x :: xs) = x :: sjf_insert_spec c xs := by
          unfold sjf_insert_spec key_insert_spec
          simp [List.takeWhile_cons, List.dropWhile_cons, hxle]
        unfold Puton_queue
        simp only [h1, h2, if_true, if_false, ite_true, ite_false, hmid, hspec]

/-- On a time-sorted event list, `Insert_event` performs exactly the ordered
insertion with FIFO tie-break (equal-time events land after existing
ones). -/
theorem insert_event_eq_spec (e : EventNode) (l : List EventNode) (hs : TSorted l) :
    Insert_event e l = timeline_insert_spec e l := by
  match l with
  | [] => rfl
  | x :: xs =>
    by_cases h1 : x.ev_time > e.ev_time
    · have hnle : ¬ x.ev_time ≤ e.ev_time := not_le.mpr h1
      unfold Insert_event timeline_insert_spec key_insert_spec
      simp [List.takeWhile_cons, List.dropWhile_cons, h1, hnle]
    · by_cases h2 : (xs.getLastD x).ev_time ≤ e.ev_time
      · have hall : ∀ b ∈ x :: xs, b.ev_time ≤ e.ev_time := fun b hb =>
          le_trans (keySorted_le_getLastD _ x xs hs b hb) h2
        have hspec : timeline_insert_spec e (x :: xs) = (x :: xs) ++ [e] :=
          key_insert_spec_append _ e (x :: xs) hall
        unfold Insert_event
        simp only [h1, h2, if_true, if_false, ite_true, ite_false, hspec]
      · have hlast := List.getLastD_mem_cons xs x
        have hex : ∃ b ∈ x :: xs, e.ev_time < b.ev_time :=
          ⟨_, hlast, not_le.mp h2⟩
        have hscan := ins_scan_eq_spec e (x :: xs) hex
        unfold Insert_event Insert_event_mid
        simp only [h1, h2, if_true, if_false, ite_true, ite_false, hscan]

/-- Claim C1: the Ready Queue is kept in non-decreasing burst order by every
enqueue with FIFO tie-break among equal bursts (`Puton_queue` performs
exactly the ordered insertion that places the new customer after every
queued customer whose burst is less than or equal to its own), dequeue
removes the front element, and from any queue holding two waiting customers
of bursts 10 and 2 — whichever order they were enqueued in — the burst-2
customer is dequeued and served first. -/
theorem ready_queue_sjf_order (c : Custs) (l : List Custs) (hs : QSorted l) :
    Puton_queue c l = some (sjf_insert_spec c l)
    ∧ QSorted (sjf_insert_spec c l)
    ∧ (∀ (x : Custs) (xs : List Custs), Takoff_queue (x :: xs) = some (x, xs))
    ∧ (∀ a b : Custs, a.CPU_time = 10 → b.CPU_time = 2 →
        Puton_queue b [a] = some [b, a]
        ∧ Puton_queue a [b] = some [b, a]
        ∧ Takoff_queue [b, a] = some (b, [a])
        ∧ ∀ s : SimState, s.queue = [b, a] →
            start_service s =
              some (Gen_departure b { s with queue := [a], busy := true })) := by
  refine ⟨puton_queue_eq_spec c l hs, key_insert_spec_sorted _ c l hs,
    fun x xs => rfl, ?_⟩
  intro a b ha hb
  refine ⟨?_, ?_, rfl, ?_⟩
  · simp [Puton_queue, ha, hb]
  · simp [Puton_queue, ha, hb]
  · intro s hq
    simp [start_service, Takoff_queue, hq]

theorem ready_queue_sjf_order_witness :
    Puton_queue ⟨7, 3⟩ [⟨1, 1⟩, ⟨2, 3⟩, ⟨3, 5⟩]
      = some (sjf_insert_spec ⟨7, 3⟩ [⟨1, 1⟩, ⟨2, 3⟩, ⟨3, 5⟩]) :=
  (ready_queue_sjf_order ⟨7, 3⟩ [⟨1, 1⟩, ⟨2, 3⟩, ⟨3, 5⟩] (by decide)).1

/-- Claim C2: the event Timeline is kept in non-decreasing time order by
every `Insert_event`, a new event whose time equals existing events' times
is placed after all events sharing that time (`Insert_event` performs
exactly the ordered insertion with first-in-first-out tie-break),
`Remove_event` removes the head, and inserting events A then B at the same
time 50 yields removal order A before B. -/
theorem timeline_insert_ordered (e : EventNode) (l : List EventNode) (hs : TSorted l) :
    Insert_event e l = timeline_insert_spec e l
    ∧ TSorted (Insert_event e l)
    ∧ (∀ (x : EventNode) (xs : List EventNode), Remove_event (x :: xs) = some (x, xs))
    ∧ (∀ A B : EventNode, A.ev_time = 50 → B.ev_time = 50 →
        Insert_event A [] = [A]
        ∧ Insert_event B (Insert_event A []) = [A, B]
        ∧ Remove_event (Insert_event B (Insert_event A [])) = some (A, [B])) := by
  refine ⟨insert_event_eq_spec e l hs, ?_, fun x xs => rfl, ?_⟩
  · rw [insert_event_eq_spec e l hs]
    exact key_insert_spec_sorted _ e l hs
  · intro A B hA hB
    refine ⟨rfl, ?_, ?_⟩
    · simp [Insert_event, hA, hB]
    · simp [Insert_event, Remove_event, hA, hB]

theorem timeline_insert_ordered_witness :
    Insert_event ⟨EvType.ARRIVAL, 4, none⟩ [⟨EvType.EOS, 2, none⟩, ⟨EvType.EOS, 6, none⟩]
      = timeline_insert_spec ⟨EvType.ARRIVAL, 4, none⟩
          [⟨EvType.EOS, 2, none⟩, ⟨EvType.EOS, 6, none⟩] :=
  (timeline_insert_ordered ⟨EvType.ARRIVAL, 4, none⟩
    [⟨EvType.EOS, 2, none⟩, ⟨EvType.EOS, 6, none⟩] (by decide)).1

/-- Claim C5: on a burst-sorted queue on which both fast paths were excluded
(the new burst is not shorter than the head's and strictly shorter than the
last node's), the middle-insertion scan of `Puton_queue` finds an insertion
point and stops there — it never walks past the last element (which would
be `none`, the modelled null dereference). -/
theorem puton_mid_terminates (c x : Custs) (xs : List Custs)
    (hs : QSorted (x :: xs))
    (h1 : ¬ c.CPU_time < x.CPU_time)
    (h2 : c.CPU_time < (xs.getLastD x).CPU_time) :
    (puton_mid c (x :: xs)).isSome = true := by
  have hlast := List.getLastD_mem_cons xs x
  rcases List.mem_cons.mp hlast with h | h
  · exfalso
    rw [h] at h2
    exact h1 h2
  · rw [puton_mid_eq_spec c x xs ⟨_, h, h2⟩]
    rfl

theorem puton_mid_terminates_witness :
    (puton_mid ⟨0, 4⟩ [⟨0, 1⟩, ⟨0, 3⟩, ⟨0, 9⟩]).isSome = true :=
  puton_mid_terminates ⟨0, 4⟩ ⟨0, 1⟩ [⟨0, 3⟩, ⟨0, 9⟩] (by decide) (by decide) (by decide)

/-- Claim C7: on a non-empty time-sorted event list on which both fast paths
of `Insert_event` were excluded (the head's time is not greater than the new
time and the last node's time strictly exceeds it), the middle-insertion
scan always finds an event whose time strictly exceeds the new event's time;
the failed-scan error branch is unreachable under this precondition. -/
theorem ins_scan_finds (e x : EventNode) (xs : List EventNode)
    (hs : TSorted (x :: xs))
    (h1 : ¬ x.ev_time > e.ev_time)
    (h2 : ¬ (xs.getLastD x).ev_time ≤ e.ev_time) :
    (ins_scan e (x :: xs)).isSome = true := by
  have hlast := List.getLastD_mem_cons xs x
  rw [ins_scan_eq_spec e (x :: xs) ⟨_, hlast, not_le.mp h2⟩]
  rfl

theorem ins_scan_finds_witness :
    (ins_scan ⟨EvType.ARRIVAL, 5, none⟩
      [⟨EvType.ARRIVAL, 3, none⟩, ⟨EvType.EOS, 8, none⟩]).isSome = true :=
  ins_scan_finds ⟨EvType.ARRIVAL, 5, none⟩ ⟨EvType.ARRIVAL, 3, none⟩
    [⟨EvType.EOS, 8, none⟩] (by decide) (by decide) (by decide)

/-- Claim C10: when the middle-insertion scan of `Insert_event` fails to
find an insertion point, the function returns normally after its diagnostic:
the new event is discarded — never linked in — and the event list is left
exactly as it was. -/
theorem insert_event_mid_failed_scan (e : EventNode) (l : List EventNode)
    (h : ins_scan e l = none) : Insert_event_mid e l = l := by
  unfold Insert_event_mid
  rw [h]

theorem insert_event_mid_failed_scan_witness :
    Insert_event_mid ⟨EvType.ARRIVAL, 5, none⟩ [⟨EvType.ARRIVAL, 1, none⟩]
      = [⟨EvType.ARRIVAL, 1, none⟩] :=
  insert_event_mid_failed_scan ⟨EvType.ARRIVAL, 5, none⟩
    [⟨EvType.ARRIVAL, 1, none⟩] (by decide)

/-- Claim C6: processing a DEPARTURE event sets the server idle, adds
`clock - arrive_time` of the departing customer to the accumulator,
increments the completed count, keeps no reference to the departed customer,
and — when the Ready Queue is non-empty — immediately dequeues its front
(the shortest burst, the queue being sorted), sets the server busy again and
schedules that customer's departure at `CPU_time + clock`. -/
theorem depart_spec (c : Custs) (s : SimState) :
    (s.queue = [] → depart c s = some
      { s with
        busy := false
        accum_resp_time := s.accum_resp_time + (s.clock - c.arrive_time)
        num_resp_time := s.num_resp_time + 1 })
    ∧ ∀ x xs, s.queue = x :: xs →
        depart c s = some
          { s with
            busy := true
            queue := xs
            accum_resp_time := s.accum_resp_time + (s.clock - c.arrive_time)
            num_resp_time := s.num_resp_time + 1
            timeline := Insert_event ⟨EvType.COMPLETE, x.CPU_time + s.clock, some x⟩
              s.timeline }
        ∧ (QSorted s.queue → ∀ b ∈ s.queue, x.CPU_time ≤ b.CPU_time) := by
  constructor
  · intro hq
    simp [depart, hq]
  · intro x xs hq
    constructor
    · simp [depart, start_service, Takoff_queue, Gen_departure, hq]
    · intro hsq b hb
      rw [hq] at hsq hb
      obtain ⟨hhead, -⟩ := List.pairwise_cons.mp hsq
      rcases List.mem_cons.mp hb with h | h
      · rw [h]
      · exact hhead b h

theorem depart_spec_witness :
    depart ⟨2, 3⟩ wsE = some
      { wsE with
        busy := false
        accum_resp_time := wsE.accum_resp_time + (wsE.clock - Custs.arrive_time ⟨2, 3⟩)
        num_resp_time := wsE.num_resp_time + 1 }
    ∧ depart ⟨2, 3⟩ wsN = some
      { wsN with
        busy := true
        queue := [⟨6, 9⟩]
        accum_resp_time := wsN.accum_resp_time + (wsN.clock - Custs.arrive_time ⟨2, 3⟩)
        num_resp_time := wsN.num_resp_time + 1
        timeline := Insert_event
          ⟨EvType.COMPLETE, Custs.CPU_time ⟨5, 7⟩ + wsN.clock, some ⟨5, 7⟩⟩
          wsN.timeline } :=
  ⟨(depart_spec ⟨2, 3⟩ wsE).1 rfl, ((depart_spec ⟨2, 3⟩ wsN).2 ⟨5, 7⟩ [⟨6, 9⟩] rfl).1⟩

/-- Claim C9: one driver step reports a mean exactly when the dequeued event
is END_OF_SIMULATION, and the reported mean is the accumulated response time
divided by (100 times the number of completed customers). -/
theorem eos_reports_mean (s : SimState) (m : ℚ) :
    sim_step s = StepResult.done m ↔
      ∃ ev rest, Remove_event s.timeline = some (ev, rest)
        ∧ ev.ev_type = EvType.EOS
        ∧ m = (s.accum_resp_time : ℚ) / (100 * (s.num_resp_time : ℚ)) := by
  cases htl : s.timeline with
  | nil => simp [sim_step, Remove_event, htl]
  | cons x xs =>
    cases hty : x.ev_type with
    | ARRIVAL =>
      cases harr : arrive { s with timeline := xs, clock := x.ev_time } with
      | none => simp [sim_step, Remove_event, htl, hty, harr]
      | some s2 => simp [sim_step, Remove_event, htl, hty, harr]
    | COMPLETE =>
      cases hci : x.cust_index with
      | none => simp [sim_step, Remove_event, htl, hty, hci]
      | some c =>
        cases hdep : depart c { s with timeline := xs, clock := x.ev_time } with
        | none => simp [sim_step, Remove_event, htl, hty, hci, hdep]
        | some s2 => simp [sim_step, Remove_event, htl, hty, hci, hdep]
    | EOS =>
      simp [sim_step, Remove_event, htl, hty, Process_statistics, eq_comm]

/-! ### Invariant preservation for the driver loop -/

theorem insert_event_sorted_bound (e : EventNode) (l : List EventNode) (cl : Int)
    (hs : TSorted l) (hb : ∀ a ∈ l, cl ≤ a.ev_time) (he : cl ≤ e.ev_time) :
    TSorted (Insert_event e l) ∧ ∀ a ∈ Insert_event e l, cl ≤ a.ev_time := by
  rw [insert_event_eq_spec e l hs]
  refine ⟨key_insert_spec_sorted _ e l hs, ?_⟩
  intro a ha
  rcases mem_key_insert_spec ha with h | h
  · rw [h]
    exact he
  · exact hb a h

theorem start_service_pres (t t' : SimState) (hI : SimInv t)
    (h : start_service t = some t') : SimInv t' ∧ t'.clock = t.clock := by
  obtain ⟨hT, hC, hQ, hN, hR⟩ := hI
  cases hq : t.queue with
  | nil => simp [start_service, Takoff_queue, hq] at h
  | cons x xs =>
    simp only [start_service, Takoff_queue, hq, Option.some.injEq] at h
    have hx0 : (0:Int) ≤ x.CPU_time := hN x (by rw [hq]; simp)
    rw [hq] at hQ hN
    have hins := insert_event_sorted_bound ⟨EvType.COMPLETE, x.CPU_time + t.clock, some x⟩
      t.timeline t.clock hT hC (by show t.clock ≤ x.CPU_time + t.clock; linarith)
    subst h
    refine ⟨⟨hins.1, hins.2, ?_, ?_, hR⟩, rfl⟩
    · exact (List.pairwise_cons.mp hQ).2
    · intro b hb
      exact hN b (List.mem_cons_of_mem x hb)

theorem arrive_eq (t : SimState) (hQ : QSorted t.queue) :
    arrive t =
      (if t.busy then
        some { t with
          timeline := Insert_event
            ⟨EvType.ARRIVAL, t.clock + t.rng t.rng_idx, some ⟨0, 0⟩⟩ t.timeline
          queue := sjf_insert_spec ⟨t.clock, t.rng (t.rng_idx + 1)⟩ t.queue
          rng_idx := t.rng_idx + 2 }
      else
        start_service { t with
          timeline := Insert_event
            ⟨EvType.ARRIVAL, t.clock + t.rng t.rng_idx, some ⟨0, 0⟩⟩ t.timeline
          queue := sjf_insert_spec ⟨t.clock, t.rng (t.rng_idx + 1)⟩ t.queue
          rng_idx := t.rng_idx + 2 }) := by
  have hput := puton_queue_eq_spec ⟨t.clock, t.rng (t.rng_idx + 1)⟩ t.queue hQ
  unfold arrive Gen_arrival
  simp only [hput]

theorem arrive_pres (t t' : SimState) (hI : SimInv t)
    (h : arrive t = some t') : SimInv t' ∧ t'.clock = t.clock := by
  obtain ⟨hT, hC, hQ, hN, hR⟩ := hI
  have hc1 : (0:Int) ≤ t.rng (t.rng_idx + 1) := hR _
  have hins := insert_event_sorted_bound
    ⟨EvType.ARRIVAL, t.clock + t.rng t.rng_idx, some ⟨0, 0⟩⟩ t.timeline t.clock hT hC
    (by have := hR t.rng_idx; show t.clock ≤ t.clock + t.rng t.rng_idx; linarith)
  have hqs : QSorted (sjf_insert_spec ⟨t.clock, t.rng (t.rng_idx + 1)⟩ t.queue) :=
    key_insert_spec_sorted _ _ t.queue hQ
  have hqm : ∀ b ∈ sjf_insert_spec ⟨t.clock, t.rng (t.rng_idx + 1)⟩ t.queue,
      (0:Int) ≤ b.CPU_time := by
    intro b hb
    rcases mem_key_insert_spec hb with hbc | hbold
    · rw [hbc]
      exact hc1
    · exact hN b hbold
  rw [arrive_eq t hQ] at h
  have hI3 : SimInv { t with
      timeline := Insert_event
        ⟨EvType.ARRIVAL, t.clock + t.rng t.rng_idx, some ⟨0, 0⟩⟩ t.timeline
      queue := sjf_insert_spec ⟨t.clock, t.rng (t.rng_idx + 1)⟩ t.queue
      rng_idx := t.rng_idx + 2 } :=
    ⟨hins.1, hins.2, hqs, hqm, hR⟩
  cases hbusy : t.busy with
  | true =>
    rw [hbusy] at h
    simp at h
    subst h
    exact ⟨hI3, rfl⟩
  | false =>
    rw [hbusy] at h
    simp at h
    have hres := start_service_pres _ _ hI3 h
    exact ⟨hres.1, hres.2⟩

theorem depart_pres (c : Custs) (t t' : SimState) (hI : SimInv t)
    (h : depart c t = some t') : SimInv t' ∧ t'.clock = t.clock := by
  obtain ⟨hT, hC, hQ, hN, hR⟩ := hI
  unfold depart at h
  cases hq : t.queue with
  | nil =>
    simp only [hq] at h
    simp at h
    subst h
    refine ⟨⟨hT, hC, List.Pairwise.nil, ?_, hR⟩, rfl⟩
    intro b hb
    simp at hb
  | cons x xs =>
    simp only [hq] at h
    rw [hq] at hQ hN
    have hI1 : SimInv { t with
        busy := false
        accum_resp_time := t.accum_resp_time + (t.clock - c.arrive_time)
        num_resp_time := t.num_resp_time + 1
        queue := x :: xs } := ⟨hT, hC, hQ, hN, hR⟩
    have hres := start_service_pres _ _ hI1 h
    exact ⟨hres.1, hres.2⟩

theorem sim_step_pres (s s' : SimState) (hI : SimInv s)
    (h : sim_step s = StepResult.next s') :
    s.clock ≤ s'.clock ∧ SimInv s' := by
  obtain ⟨hT, hC, hQ, hN, hR⟩ := hI
  cases htl : s.timeline with
  | nil => simp [sim_step, Remove_event, htl] at h
  | cons x xs =>
    rw [htl] at hT hC
    have hT' : List.Pairwise (fun a b : EventNode => a.ev_time ≤ b.ev_time) (x :: xs) := hT
    have hclk : s.clock ≤ x.ev_time := hC x (by simp)
    have hI1 : SimInv { s with timeline := xs, clock := x.ev_time } := by
      refine ⟨(List.pairwise_cons.mp hT').2, ?_, hQ, hN, hR⟩
      intro e he
      exact (List.pairwise_cons.mp hT').1 e he
    cases hty : x.ev_type with
    | ARRIVAL =>
      cases harr : arrive { s with timeline := xs, clock := x.ev_time } with
      | none => simp [sim_step, Remove_event, htl, hty, harr] at h
      | some s2 =>
        have hs2 : s2 = s' := by
          simp [sim_step, Remove_event, htl, hty, harr] at h
          exact h
        subst hs2
        have hres := arrive_pres _ _ hI1 harr
        refine ⟨?_, hres.1⟩
        rw [hres.2]
        exact hclk
    | COMPLETE =>
      cases hci : x.cust_index with
      | none => simp [sim_step, Remove_event, htl, hty, hci] at h
      | some c =>
        cases hdep : depart c { s with timeline := xs, clock := x.ev_time } with
        | none => simp [sim_step, Remove_event, htl, hty, hci, hdep] at h
        | some s2 =>
          have hs2 : s2 = s' := by
            simp [sim_step, Remove_event, htl, hty, hci, hdep] at h
            exact h
          subst hs2
          have hres := depart_pres c _ _ hI1 hdep
          refine ⟨?_, hres.1⟩
          rw [hres.2]
          exact hclk
    | EOS => simp [sim_step, Remove_event, htl, hty] at h

/-- Claim C8: the simulation clock is monotonically non-decreasing over
every run — it is advanced only when an event is dequeued (one `sim_step`,
which sets it to that event's time), each such value is at least the
previous clock value under the driver invariant, and the clock is never
decremented. -/
theorem clock_monotone (n : Nat) : ∀ s s' : SimState, SimInv s →
    sim_iter n s = some s' → s.clock ≤ s'.clock ∧ SimInv s' := by
  induction n with
  | zero =>
    intro s s' hI h
    have hss : s = s' := Option.some.inj h
    subst hss
    exact ⟨le_refl _, hI⟩
  | succ n ih =>
    intro s s' hI h
    unfold sim_iter at h
    cases hstep : sim_step s with
    | next s1 =>
      rw [hstep] at h
      have h1 := sim_step_pres s s1 hI hstep
      have h2 := ih s1 s' h1.2 h
      exact ⟨le_trans h1.1 h2.1, h2.2⟩
    | done m =>
      rw [hstep] at h
      simp at h
    | fail =>
      rw [hstep] at h
      simp at h

theorem clock_monotone_witness :
    witState.clock ≤ witState'.clock ∧ SimInv witState' :=
  clock_monotone 1 witState witState'
    (by
      refine ⟨by decide, ?_, by decide, by decide, ?_⟩
      · intro e he
        simp [witState] at he ⊢
        subst he
        decide
      · intro n
        norm_num [witState])
    (by rfl)

/-! ### The exponential variate generator -/

/-- Claim C3 (counterexample): at the producible uniform draw u = 0 (from
rand() = 0) with the positive mean 1, `expon` computes
`ceil(-(100) * ln 1) = 0` — not a strictly positive integer — refuting the
claim as stated for the draw u = 0 (which satisfies u < 1). -/
theorem expon_not_pos_at_zero_draw :
    expon 1 0 = 0 ∧ ¬ 1 ≤ expon 1 0 := by
  have h : expon 1 0 = 0 := by
    unfold expon
    rw [show (1:ℝ) - 0 = 1 by norm_num, Real.log_one, mul_zero, Int.ceil_zero]
  exact ⟨h, by rw [h]; decide⟩

/-- Claim C3 (amended): for every positive mean and every uniform draw u
with 0 < u < 1, `expon` computes `ceil(-(100*mean) * ln(1 - u))` and the
result is a strictly positive integer; the boundary draw u = 0 — allowed by
the claim's `u < 1` — instead yields 0. -/
theorem expon_pos (mean u : ℝ) (hm : 0 < mean) (h0 : 0 < u) (h1 : u < 1) :
    expon mean u = ⌈-(100 * mean) * Real.log (1 - u)⌉ ∧ 1 ≤ expon mean u := by
  constructor
  · unfold expon
    rw [mul_comm mean 100]
  · have ha : (0:ℝ) < 1 - u := by linarith
    have hb : 1 - u < 1 := by linarith
    have hlog : Real.log (1 - u) < 0 := Real.log_neg ha hb
    have hneg : -(mean * 100) < 0 := by nlinarith
    have hpos : 0 < -(mean * 100) * Real.log (1 - u) := mul_pos_of_neg_of_neg hneg hlog
    unfold expon
    have hceil := Int.ceil_pos.mpr hpos
    omega

theorem expon_pos_witness :
    expon 1 (1 / 2) = ⌈-(100 * 1) * Real.log (1 - 1 / 2)⌉ ∧ 1 ≤ expon 1 (1 / 2) :=
  expon_pos 1 (1 / 2) (by norm_num) (by norm_num) (by norm_num)

/-- Claim C4 (refuted — code bug): the uniform draw `rand()/(float)RAND_MAX`
used by `expon` does reach exactly 1: `rand()` can return `RAND_MAX` itself
(a producible outcome, being within [0, RAND_MAX]), the draw then equals 1
and the argument of `ln` is 0 — the sampled range is the closed interval
[0, 1], not the half-open [0, 1) the claim asserts. -/
theorem uniform_draw_hits_one :
    0 ≤ RAND_MAX ∧ uniform_draw RAND_MAX = 1 ∧ (1:ℚ) - uniform_draw RAND_MAX = 0 := by
  refine ⟨by norm_num [RAND_MAX], ?_, ?_⟩
  · norm_num [uniform_draw, RAND_MAX]
  · norm_num [uniform_draw, RAND_MAX]
